import Mathlib

/-!
Shallow embedding of the time-grid / playback core of the
musicians_helper transcription workstation, together with proofs of the
spec's testable properties.  Times, durations and tempi are embedded as
rationals; chord strings are embedded as lists of characters; fallible
lookups return `Option`.
-/

/-- `BeatUnit` from `src/types.ts`: which note value one bpm click represents. -/
inductive BeatUnit where
  | quarter
  | eighth
  | dottedQuarter
deriving DecidableEq, Repr

/-- `GridConfig` from `src/types.ts`. -/
structure GridConfig where
  bpm : ℚ
  tsTop : ℚ
  tsBottom : ℚ
  keySignature : List Char
  offset : ℚ
  beatUnit : BeatUnit
deriving DecidableEq, Repr

/-- `Measure` from `src/types.ts`: `duration` is the optional rubato override. -/
structure Measure where
  index : Nat
  chords : List Char
  lyrics : List Char
  duration : Option ℚ
deriving DecidableEq, Repr

/-- `getStandardDuration` from `src/App.tsx` (lines 149-156): the multiplier is
applied as `bpm * (1/multiplier)` in the denominator. -/
def getStandardDuration (cfg : GridConfig) : ℚ :=
  let multiplier : ℚ :=
    match cfg.beatUnit with
    | .eighth => 0.5
    | .dottedQuarter => 1.5
    | .quarter => 1
  let beats := cfg.tsTop * (4 / cfg.tsBottom)
  (beats * 60) / (cfg.bpm * (1 / multiplier))

/-- `getStandardDuration` from `src/unnamed/part_000` (lines 162-169) and
`src/unnamed/part_005` (lines 49-57): `effectiveBpm` is `bpm/2` for eighth and
`bpm*1.5` for dotted-quarter. -/
def getStandardDurationP0 (cfg : GridConfig) : ℚ :=
  let effectiveBpm : ℚ :=
    match cfg.beatUnit with
    | .eighth => cfg.bpm / 2
    | .dottedQuarter => cfg.bpm * 1.5
    | .quarter => cfg.bpm
  let beats := cfg.tsTop * (4 / cfg.tsBottom)
  (beats * 60) / effectiveBpm

/-- `getStandardDuration` from `src/components/WaveformTimeline.tsx`
(lines 39-42): ignores the beat unit entirely. -/
def getStandardDurationWT (cfg : GridConfig) : ℚ :=
  let beats := cfg.tsTop * (4 / cfg.tsBottom)
  (beats * 60) / cfg.bpm

/-- Modelled from the spec invariant (section 3): the effective bpm that the
claimed formula divides by: `eighth` halves bpm, `dotted-quarter` multiplies
it by 1.5, `quarter` leaves it unchanged. -/
def specEffectiveBpm (cfg : GridConfig) : ℚ :=
  match cfg.beatUnit with
  | .eighth => cfg.bpm / 2
  | .dottedQuarter => cfg.bpm * (3 / 2)
  | .quarter => cfg.bpm

/-- Modelled from the spec invariant (section 3):
`standardMeasureDuration = (timeSigTop * (4/timeSigBottom) * 60) / effectiveBpm`. -/
def specStandardDuration (cfg : GridConfig) : ℚ :=
  (cfg.tsTop * (4 / cfg.tsBottom) * 60) / specEffectiveBpm cfg

/-- One row of the measure layout: absolute start time plus duration. -/
structure LayoutEntry where
  index : Nat
  start : ℚ
  duration : ℚ
deriving DecidableEq, Repr

/-- Running-sum core of `measureLayout` from `src/unnamed/part_005`
(lines 59-67): `t` is the accumulated absolute time. -/
def measureLayoutAux (cfg : GridConfig) : ℚ → List Measure → List LayoutEntry
  | _, [] => []
  | t, m :: rest =>
    let dur := m.duration.getD (getStandardDurationP0 cfg)
    ⟨m.index, t, dur⟩ :: measureLayoutAux cfg (t + dur) rest

/-- `measureLayout` from `src/unnamed/part_005` (lines 59-67): the running sum
starts at `gridConfig.offset`; each measure uses its own duration override
when present, else the standard duration. -/
def measureLayout (ms : List Measure) (cfg : GridConfig) : List LayoutEntry :=
  measureLayoutAux cfg cfg.offset ms

/-- `Marker` from `src/types.ts`. -/
structure Marker where
  id : List Char
  time : ℚ
  label : List Char
  color : Option (List Char)
deriving DecidableEq, Repr

/-- `HistoryState` from `src/App.tsx` (lines 15-19): one snapshot. -/
structure HistorySnapshot where
  measures : List Measure
  gridConfig : GridConfig
  markers : List Marker
deriving DecidableEq, Repr

/-- The history stack of `src/App.tsx`: the `history` array plus the
`historyIndex` cursor (`-1` when empty). -/
structure HistorySt where
  history : List HistorySnapshot
  historyIndex : Int
deriving DecidableEq, Repr

/-- `addToHistory` from `src/App.tsx` (lines 502-514): truncate to
`historyIndex + 1` entries, append the deep-cloned snapshot, and point the
cursor at the new last entry. -/
def addToHistory (s : HistorySnapshot) (st : HistorySt) : HistorySt :=
  let newHistory := st.history.take (st.historyIndex + 1).toNat ++ [s]
  { history := newHistory, historyIndex := (newHistory.length : Int) - 1 }

/-- `undo` from `src/App.tsx` (lines 516-524), restricted to the history
bookkeeping: decrement the cursor unless it is already at 0. -/
def undoH (st : HistorySt) : HistorySt :=
  if 0 < st.historyIndex then { st with historyIndex := st.historyIndex - 1 } else st

/-- `redo` from `src/App.tsx` (lines 526-534), restricted to the history
bookkeeping: increment the cursor unless it is already at the last entry. -/
def redoH (st : HistorySt) : HistorySt :=
  if st.historyIndex < (st.history.length : Int) - 1 then
    { st with historyIndex := st.historyIndex + 1 }
  else st

/-- `RegionSelection` from `src/types.ts`. -/
structure RegionSelection where
  active : Bool
  start : ℚ
  endPos : ℚ
deriving DecidableEq, Repr

/-- The transport timing state of `src/unnamed/part_000`: the two anchor refs
(`playbackStartTimeRef`, `playbackOffsetRef`), the grain player's
`playbackRate`, and the `audioState` fields the update loop reads/writes. -/
structure TransportState where
  playbackStartTime : ℚ
  playbackOffset : ℚ
  playbackRate : ℚ
  isLoaded : Bool
  isPlaying : Bool
  currentTime : ℚ
  duration : ℚ
deriving DecidableEq, Repr

/-- `togglePlay` from `src/unnamed/part_000` (lines 600-619): starting playback
records the anchor pair `(Tone.now(), currentTime)`. -/
def togglePlay (now : ℚ) (st : TransportState) : TransportState :=
  if st.isPlaying then { st with isPlaying := false }
  else
    { st with
      playbackStartTime := now
      playbackOffset := st.currentTime
      isPlaying := true }

/-- `updateLoop` from `src/unnamed/part_000` (lines 998-1026): one animation
tick; position is recomputed from the anchor as
`playbackOffset + elapsed * currentRate`. -/
def updateLoop (now : ℚ) (sel : RegionSelection) (st : TransportState) : TransportState :=
  if st.isLoaded ∧ st.isPlaying then
    let elapsed := now - st.playbackStartTime
    let nextTime := st.playbackOffset + elapsed * st.playbackRate
    if st.duration ≤ nextTime then
      { st with isPlaying := false, currentTime := st.duration }
    else if sel.active ∧ sel.start < sel.endPos ∧ sel.endPos ≤ nextTime then
      { st with isPlaying := false, currentTime := sel.start }
    else { st with currentTime := nextTime }
  else st

/-- The `key === 'speed'` branch of `handleParamChange` from
`src/unnamed/part_000` (lines 1030-1052): while playing, fold the elapsed time
at the old rate into `playbackOffsetRef`, reset the anchor clock, then apply
the new rate. -/
def handleParamChangeSpeed (now value : ℚ) (st : TransportState) : TransportState :=
  if st.isPlaying then
    { st with
      playbackOffset := st.playbackOffset + (now - st.playbackStartTime) * st.playbackRate
      playbackStartTime := now
      playbackRate := value }
  else { st with playbackRate := value }

/-- `Array.prototype.splice(start, 0, ...items)` insertion as used by the
measure operations: negative positions count from the end and positions are
clamped to the array bounds. -/
def jsSpliceInsert (l : List α) (idx : Int) (items : List α) : List α :=
  let pos := if idx < 0 then ((l.length : Int) + idx).toNat else min idx.toNat l.length
  l.take pos ++ items ++ l.drop pos

/-- The reindex pass `.map((m, i) => ({ ...m, index: i + 1 }))` shared by every
structural measure operation in `src/App.tsx`. -/
def reindex (l : List Measure) : List Measure :=
  l.mapIdx fun i m => { m with index := i + 1 }

/-- Indices are dense `1..N` in positional order. -/
def indicesDense (ms : List Measure) : Prop :=
  ms.map (·.index) = List.range' 1 ms.length

instance (ms : List Measure) : Decidable (indicesDense ms) := by
  unfold indicesDense; infer_instance

/-- Insertion position relative to the target measure. -/
inductive InsertPos where
  | before
  | after
deriving DecidableEq, Repr

/-- `handleInsertMeasure` from `src/App.tsx` (lines 916-929): splice in a blank
measure at `targetIndex - 1` (before) or `targetIndex` (after), then reindex. -/
def handleInsertMeasure (targetIndex : Int) (position : InsertPos) (ms : List Measure) :
    List Measure :=
  let insertIndex := if position = .before then targetIndex - 1 else targetIndex
  let spliced := jsSpliceInsert ms insertIndex [{ index := 0, chords := [], lyrics := [], duration := none }]
  reindex spliced

/-- `handleDeleteMeasure` from `src/App.tsx` (lines 908-914): filter out the
matching measure, reindex, and drop the index from the selection set.  There
is no empty-list guard in this variant. -/
def handleDeleteMeasure (index : Nat) (ms : List Measure) (sel : List Nat) :
    List Measure × List Nat :=
  (reindex (ms.filter fun m => m.index != index), sel.filter fun i => i != index)

/-- `handleDeleteMeasure` from `src/unnamed/part_001` (lines 664-669): same
removal, but a no-op when the list holds at most one measure; does not touch
the selection set. -/
def handleDeleteMeasureP1 (indexToDelete : Nat) (ms : List Measure) : List Measure :=
  if ms.length ≤ 1 then ms
  else reindex (ms.filter fun m => m.index != indexToDelete)

/-- `handleDuplicateSelection` from `src/App.tsx` (lines 600-650) /
`src/unnamed/part_000` (lines 650-702), restricted to the measures and the
measure-selection set it produces: duplicate the selected measures (content,
including the rubato override, retained) just after the maximum selected
index, reindex, and select the inserted block. -/
def handleDuplicateSelection (selected : List Nat) (ms : List Measure) :
    List Measure × List Nat :=
  if selected.length = 0 then (ms, selected)
  else
    let sortedIndices := selected.insertionSort (· ≤ ·)
    let insertPointIndex := sortedIndices.getD (sortedIndices.length - 1) 0
    let measuresToDuplicate := ms.filter fun m => sortedIndices.contains m.index
    if measuresToDuplicate.length = 0 then (ms, selected)
    else
      let newBlock := measuresToDuplicate.map fun m => { m with index := 0 }
      let spliced := jsSpliceInsert ms (insertPointIndex : Int) newBlock
      let reindexed := reindex spliced
      let newSelectionStart := insertPointIndex + 1
      let newSelectionEnd := insertPointIndex + newBlock.length
      (reindexed, List.range' newSelectionStart (newSelectionEnd + 1 - newSelectionStart))

/-- `handleMeasureDurationChange` from `src/App.tsx` (lines 888-896): set the
duration override of the matching measure, clearing it when the new duration
is not positive. -/
def handleMeasureDurationChange (index : Nat) (newDuration : ℚ) (ms : List Measure) :
    List Measure :=
  ms.map fun m =>
    if m.index = index then
      { m with duration := if 0 < newDuration then some newDuration else none }
    else m

/-- `LoopState` from `src/types.ts`: `endPos` embeds the `end` field. -/
structure LoopState where
  active : Bool
  start : Option ℚ
  endPos : Option ℚ
deriving DecidableEq, Repr

/-- The four commands accepted by `handleSetLoop`. -/
inductive SetLoopType where
  | setStart
  | setEnd
  | clear
  | toggle
deriving DecidableEq, Repr

/-- `handleSetLoop` from `src/App.tsx` (lines 847-875), restricted to the loop
state it returns: apply the command at the current playback time, then swap
the two bounds whenever both are set and inverted. -/
def handleSetLoop (type : SetLoopType) (currentTime : ℚ) (prev : LoopState) : LoopState :=
  let s1 :=
    match type with
    | .setStart => { prev with start := some currentTime }
    | .setEnd => { prev with endPos := some currentTime }
    | .clear => { prev with start := none, endPos := none, active := false }
    | .toggle => { prev with active := !prev.active }
  match s1.start, s1.endPos with
  | some a, some b => if b < a then { s1 with start := some b, endPos := some a } else s1
  | _, _ => s1

/-- The start time of the measure at position `measureIndex`, as accumulated
by the drag loop of `handleMouseMove` in `src/components/WaveformTimeline.tsx`
(lines 236-241): offset plus the durations of the preceding measures. -/
def measureStart (cfg : GridConfig) (ms : List Measure) (measureIndex : Nat) : ℚ :=
  cfg.offset + (((ms.take measureIndex).map fun m => m.duration.getD (getStandardDurationWT cfg)).sum)

/-- The drag branch of `handleMouseMove` from
`src/components/WaveformTimeline.tsx` (lines 215-252), restricted to the
grid config and measure list it produces: dragging line 0 moves the offset;
dragging line `n ≥ 1` infers a new duration for measure `n - 1` as the
dragged time minus that measure's start, applied only past the 0.1 s floor. -/
def handleMouseMoveDrag (draggingLine : Nat) (time : ℚ) (cfg : GridConfig)
    (ms : List Measure) : GridConfig × List Measure :=
  let newTime := max 0 time
  if draggingLine = 0 then ({ cfg with offset := newTime }, ms)
  else
    let measureIndex := draggingLine - 1
    match ms.get? measureIndex with
    | none => (cfg, ms)
    | some m =>
      let startT := measureStart cfg ms measureIndex
      let newDuration := newTime - startT
      if 1 / 10 < newDuration then (cfg, handleMeasureDurationChange m.index newDuration ms)
      else (cfg, ms)

/-- The chromatic table of `src/unnamed/part_001` (line 673), sharps spelling. -/
def notesSharpP1 : List (List Char) :=
  [['C'], ['C', '#'], ['D'], ['D', '#'], ['E'], ['F'], ['F', '#'],
   ['G'], ['G', '#'], ['A'], ['A', '#'], ['B']]

/-- The `flatsMap` of `src/unnamed/part_001` (line 674): flat spellings
normalised to sharps. -/
def flatsMapP1 : List (List Char × List Char) :=
  [(['D', 'b'], ['C', '#']), (['E', 'b'], ['D', '#']), (['G', 'b'], ['F', '#']),
   (['A', 'b'], ['G', '#']), (['B', 'b'], ['A', '#'])]

/-- `transposeNote` from `src/unnamed/part_001` (lines 672-686): normalise to
the sharp spelling, move `(index + semitones) mod 12` steps around the
chromatic circle (JavaScript remainder corrected to be non-negative), and
return unrecognised tokens unchanged. -/
def transposeNote (note : List Char) (semitones : Int) : List Char :=
  let normalized := (flatsMapP1.lookup note).getD note
  if notesSharpP1.contains normalized then
    let index : Int := notesSharpP1.indexOf normalized
    let newIndex := (index + semitones) % 12
    notesSharpP1.getD newIndex.toNat []
  else note

/-- A character the single-line `.` of the JavaScript regex matches. -/
def regexDotChar (c : Char) : Bool :=
  c != '\n' && c != '\r' && c != '\u2028' && c != '\u2029'

/-- The `processPart` closure of `transposeChordStr` in
`src/unnamed/part_001` (lines 691-700): match `^([A-G][#b]?)(.*)`, transpose
the leading note token, and keep the (single-line) suffix verbatim; parts
that do not match are returned unchanged. -/
def processPart (semitones : Int) (part : List Char) : List Char :=
  match part with
  | [] => part
  | c :: rest =>
    if 'A' ≤ c ∧ c ≤ 'G' then
      match rest with
      | a :: rest2 =>
        if a = '#' ∨ a = 'b' then
          transposeNote [c, a] semitones ++ rest2.takeWhile regexDotChar
        else
          transposeNote [c] semitones ++ rest.takeWhile regexDotChar
      | [] => transposeNote [c] semitones
    else part

/-- `String.prototype.split(sep)` for a single-character separator, on the
list-of-characters embedding of strings. -/
def jsSplit (sep : Char) (s : List Char) : List (List Char) :=
  s.foldr
    (fun c acc =>
      if c = sep then [] :: acc
      else
        match acc with
        | [] => [[c]]
        | h :: t => (c :: h) :: t)
    [[]]

/-- `transposeChordStr` from `src/unnamed/part_001` (lines 688-709): empty
chords pass through; a single slash splits the chord into a main part and a
bass part, each transposed by `processPart`. -/
def transposeChordStr (chordStr : List Char) (semitones : Int) : List Char :=
  if chordStr = [] then []
  else
    let parts := jsSplit '/' chordStr
    if parts.length = 2 then
      processPart semitones (parts.getD 0 []) ++ '/' :: processPart semitones (parts.getD 1 [])
    else processPart semitones chordStr

/-- The `n`-th sharp-spelled note token (`[]` out of range). -/
def noteAt (n : Nat) : List Char :=
  notesSharpP1.getD n []

/-- A chord-quality suffix the supported grammar allows: printable single-line
text with no slash, not starting with an accidental (an accidental directly
after the root letter is part of the root token instead). -/
def goodSuffix (s : List Char) : Prop :=
  (∀ c ∈ s, regexDotChar c = true ∧ c ≠ '/') ∧
  (∀ c, s.head? = some c → c ≠ '#' ∧ c ≠ 'b')

instance (s : List Char) : Decidable (goodSuffix s) := by
  unfold goodSuffix; infer_instance

/-- A chord string of the supported grammar, rendered from a sharp-table root
index, a quality suffix, and an optional slash bass. -/
def renderChord (root : Nat) (suffix : List Char) (bass : Option (Nat × List Char)) :
    List Char :=
  match bass with
  | none => noteAt root ++ suffix
  | some (broot, bsuffix) => (noteAt root ++ suffix) ++ '/' :: (noteAt broot ++ bsuffix)

/-! ## Theorems -/

/-- C1 counterexample: at bpm 120, 4/4, beat unit eighth, the `App.tsx`
variant of `getStandardDuration` yields 1 s while the claimed formula yields
4 s — that variant multiplies the effective bpm by 2 for eighth notes instead
of halving it, so the claim is false of it. -/
theorem getStandardDuration_app_diverges_from_spec :
    getStandardDuration ⟨120, 4, 4, ['C'], 0, .eighth⟩ = 1 ∧
    specStandardDuration ⟨120, 4, 4, ['C'], 0, .eighth⟩ = 4 ∧
    getStandardDuration ⟨120, 4, 4, ['C'], 0, .eighth⟩ ≠
      specStandardDuration ⟨120, 4, 4, ['C'], 0, .eighth⟩ := by
  refine ⟨by norm_num [getStandardDuration], by norm_num [specStandardDuration, specEffectiveBpm], ?_⟩
  norm_num [getStandardDuration, specStandardDuration, specEffectiveBpm]

/-- C1 (amended): the `part_000`/`part_005` variant of `getStandardDuration`
satisfies the claimed formula `(tsTop * (4/tsBottom) * 60) / effectiveBpm`
with eighth halving and dotted-quarter multiplying the effective bpm by 1.5,
and under it switching the beat unit from quarter to eighth doubles the
standard measure duration. -/
theorem getStandardDurationP0_matches_spec :
    ∀ cfg : GridConfig,
      getStandardDurationP0 cfg = specStandardDuration cfg ∧
      getStandardDurationP0 { cfg with beatUnit := .eighth } =
        2 * getStandardDurationP0 { cfg with beatUnit := .quarter } := by
  intro cfg
  constructor
  · unfold getStandardDurationP0 specStandardDuration specEffectiveBpm
    cases cfg.beatUnit <;> norm_num
  · show (cfg.tsTop * (4 / cfg.tsBottom) * 60) / (cfg.bpm / 2) =
      2 * ((cfg.tsTop * (4 / cfg.tsBottom) * 60) / cfg.bpm)
    rw [div_div_eq_mul_div]
    ring

/-- C6: `addToHistory` truncates the snapshot list to `historyIndex + 1`
entries before appending, points the cursor at the new last entry, and in any
history with at least two snapshots, undo followed by commit leaves `redo` a
no-op: the formerly redoable snapshots are discarded. -/
theorem addToHistory_truncates_and_kills_redo (st : HistorySt) (s : HistorySnapshot)
    (_h2 : 2 ≤ st.history.length) :
    (addToHistory s st).history = st.history.take (st.historyIndex + 1).toNat ++ [s] ∧
    (addToHistory s st).historyIndex = ((addToHistory s st).history.length : Int) - 1 ∧
    redoH (addToHistory s (undoH st)) = addToHistory s (undoH st) := by
  refine ⟨rfl, rfl, ?_⟩
  unfold redoH addToHistory
  simp

/-- C6 witness: a two-snapshot history at cursor 1. -/
theorem addToHistory_truncates_witness :
    redoH (addToHistory ⟨[], ⟨120, 4, 4, ['C'], 0, .quarter⟩, []⟩
        (undoH ⟨[⟨[], ⟨120, 4, 4, ['C'], 0, .quarter⟩, []⟩,
                 ⟨[], ⟨100, 3, 4, ['C'], 0, .quarter⟩, []⟩], 1⟩)) =
      addToHistory ⟨[], ⟨120, 4, 4, ['C'], 0, .quarter⟩, []⟩
        (undoH ⟨[⟨[], ⟨120, 4, 4, ['C'], 0, .quarter⟩, []⟩,
                 ⟨[], ⟨100, 3, 4, ['C'], 0, .quarter⟩, []⟩], 1⟩) :=
  (addToHistory_truncates_and_kills_redo
    ⟨[⟨[], ⟨120, 4, 4, ['C'], 0, .quarter⟩, []⟩,
      ⟨[], ⟨100, 3, 4, ['C'], 0, .quarter⟩, []⟩], 1⟩
    ⟨[], ⟨120, 4, 4, ['C'], 0, .quarter⟩, []⟩ (by decide)).2.2

/-- C2: starting anchored playback at position 0 with rate 1, changing the
speed to rate 2 after two seconds of engine-clock time, and ticking one second
later reports position `0 + 2*1 + 1*2 = 4`: `handleParamChange` folds the
elapsed-at-old-rate contribution into `playbackOffsetRef` and resets the
anchor clock, so the position stays continuous across the change. -/
theorem speed_change_position_continuity (t0 d : ℚ) (sel : RegionSelection)
    (hsel : sel.active = false) (hd : 4 < d) :
    (updateLoop (t0 + 3) sel
      (handleParamChangeSpeed (t0 + 2) 2
        (togglePlay t0
          { playbackStartTime := 0, playbackOffset := 0, playbackRate := 1,
            isLoaded := true, isPlaying := false, currentTime := 0,
            duration := d }))).currentTime = 4 := by
  simp only [togglePlay, handleParamChangeSpeed, updateLoop, if_false, if_true]
  norm_num [hsel]
  rw [if_neg (not_le.mpr hd)]

/-- C2 witness: the scenario at engine-clock origin 0 with a 10-second file. -/
theorem speed_change_position_continuity_witness :
    (updateLoop 3 ⟨false, 0, 0⟩
      (handleParamChangeSpeed 2 2
        (togglePlay 0
          { playbackStartTime := 0, playbackOffset := 0, playbackRate := 1,
            isLoaded := true, isPlaying := false, currentTime := 0,
            duration := 10 }))).currentTime = 4 := by
  have h := speed_change_position_continuity 0 10 ⟨false, 0, 0⟩ rfl (by norm_num)
  simpa using h

/-- C10: after any `handleSetLoop` command, whenever both loop bounds are set
the resulting state satisfies `start ≤ end`: a command that would invert the
range swaps the two bounds instead. -/
theorem setLoop_start_le_end (type : SetLoopType) (t : ℚ) (prev : LoopState) (a b : ℚ)
    (ha : (handleSetLoop type t prev).start = some a)
    (hb : (handleSetLoop type t prev).endPos = some b) : a ≤ b := by
  cases type <;>
    rcases hs : prev.start with _ | ps <;> rcases he : prev.endPos with _ | pe <;>
      simp only [handleSetLoop, hs, he] at ha hb <;>
      first
      | exact Option.noConfusion ha
      | exact Option.noConfusion hb
      | (split_ifs at ha hb <;>
          (injection ha with ha; injection hb with hb; subst ha; subst hb; linarith))

/-- C10 witness: setting the loop start at time 5 with the end already at 3
swaps the bounds and yields `3 ≤ 5`. -/
theorem setLoop_start_le_end_witness :
    (handleSetLoop .setStart 5 ⟨false, none, some 3⟩).start = some 3 ∧
    (handleSetLoop .setStart 5 ⟨false, none, some 3⟩).endPos = some 5 ∧ (3 : ℚ) ≤ 5 :=
  ⟨by decide, by decide,
    setLoop_start_le_end .setStart 5 ⟨false, none, some 3⟩ 3 5 (by decide) (by decide)⟩

/-- The layout has one entry per measure. -/
theorem measureLayoutAux_length (cfg : GridConfig) :
    ∀ (ms : List Measure) (t : ℚ), (measureLayoutAux cfg t ms).length = ms.length := by
  intro ms
  induction ms with
  | nil => intro t; rfl
  | cons m rest ih => intro t; simp [measureLayoutAux, ih]

/-- The first entry of a non-empty layout starts at the accumulator. -/
theorem measureLayoutAux_head_start (cfg : GridConfig) :
    ∀ (ms : List Measure) (t : ℚ) (e : LayoutEntry),
      (measureLayoutAux cfg t ms).get? 0 = some e → e.start = t := by
  intro ms t e h
  cases ms with
  | nil => exact Option.noConfusion h
  | cons m rest =>
    simp only [measureLayoutAux, List.get?] at h
    cases h
    rfl

/-- Adjacent layout entries chain: each start plus duration is the next start. -/
theorem measureLayoutAux_adjacent (cfg : GridConfig) :
    ∀ (ms : List Measure) (t : ℚ) (i : Nat) (e1 e2 : LayoutEntry),
      (measureLayoutAux cfg t ms).get? i = some e1 →
      (measureLayoutAux cfg t ms).get? (i + 1) = some e2 →
      e1.start + e1.duration = e2.start := by
  intro ms
  induction ms with
  | nil => intro t i e1 e2 h1 _; exact Option.noConfusion h1
  | cons m rest ih =>
    intro t i e1 e2 h1 h2
    cases i with
    | zero =>
      simp only [measureLayoutAux, List.get?] at h1 h2
      cases h1
      have := measureLayoutAux_head_start cfg rest
        (t + m.duration.getD (getStandardDurationP0 cfg)) e2 h2
      simpa using this.symm
    | succ j =>
      simp only [measureLayoutAux, List.get?] at h1 h2
      exact ih _ j e1 e2 h1 h2

/-- C3: for every measure list and config, adjacent entries of `measureLayout`
satisfy `start + duration = next start`, the first entry starts at
`config.offset`, and there is one entry per measure. -/
theorem measureLayout_monotone (ms : List Measure) (cfg : GridConfig) :
    (∀ (i : Nat) (e1 e2 : LayoutEntry),
        (measureLayout ms cfg).get? i = some e1 →
        (measureLayout ms cfg).get? (i + 1) = some e2 →
        e1.start + e1.duration = e2.start) ∧
    (∀ e : LayoutEntry, (measureLayout ms cfg).get? 0 = some e → e.start = cfg.offset) ∧
    (measureLayout ms cfg).length = ms.length := by
  refine ⟨?_, ?_, measureLayoutAux_length cfg ms cfg.offset⟩
  · intro i e1 e2 h1 h2
    exact measureLayoutAux_adjacent cfg ms cfg.offset i e1 e2 h1 h2
  · intro e h
    exact measureLayoutAux_head_start cfg ms cfg.offset e h

/-- C3 witness: two measures, the second with a rubato override, at offset 5
under 120 bpm 4/4: layout `[(1, 5, 2), (2, 7, 3)]` chains and starts at the
offset. -/
theorem measureLayout_monotone_witness :
    ((5 : ℚ) + 2 = 7) ∧ ((5 : ℚ) = 5) ∧
    (measureLayout [⟨1, [], [], none⟩, ⟨2, [], [], some 3⟩]
        ⟨120, 4, 4, ['C'], 5, .quarter⟩).length = 2 := by
  have h := measureLayout_monotone [⟨1, [], [], none⟩, ⟨2, [], [], some 3⟩]
    ⟨120, 4, 4, ['C'], 5, .quarter⟩
  refine ⟨?_, ?_, h.2.2⟩
  · have := h.1 0 ⟨1, 5, 2⟩ ⟨2, 7, 3⟩
      (by norm_num [measureLayout, measureLayoutAux, getStandardDurationP0])
      (by norm_num [measureLayout, measureLayoutAux, getStandardDurationP0])
    simpa using this
  · exact h.2.1 ⟨1, 5, 2⟩
      (by norm_num [measureLayout, measureLayoutAux, getStandardDurationP0])

/-- The reindex pass always produces dense indices `1..N`. -/
theorem indicesDense_reindex (l : List Measure) : indicesDense (reindex l) := by
  unfold indicesDense reindex
  apply List.ext_getElem?
  intro i
  simp only [List.getElem?_map, List.getElem?_mapIdx, List.length_mapIdx,
    List.getElem?_range']
  by_cases hlt : i < l.length
  · simp [List.getElem?_eq_getElem hlt, hlt, Nat.add_comm]
  · rw [List.getElem?_eq_none (Nat.le_of_not_lt hlt)]
    simp
    omega

/-- C4: insert, delete and duplicate each return a list whose indices are
exactly `1..M` in positional order, with no gaps and no repeats, whenever the
input list's indices are dense `1..N`. -/
theorem editing_preserves_dense_indices
    (ms : List Measure) (tIdx : Int) (pos : InsertPos) (delIdx : Nat)
    (sel selDup : List Nat) (hdense : indicesDense ms) :
    indicesDense (handleInsertMeasure tIdx pos ms) ∧
    indicesDense (handleDeleteMeasure delIdx ms sel).1 ∧
    indicesDense (handleDuplicateSelection selDup ms).1 := by
  refine ⟨indicesDense_reindex _, indicesDense_reindex _, ?_⟩
  unfold handleDuplicateSelection
  split_ifs with h1
  · exact hdense
  · dsimp only
    split_ifs with h2
    · exact hdense
    · exact indicesDense_reindex _

/-- C4 witness: a two-measure dense list stays dense under insert after 1,
delete 1, and duplicate of measure 2. -/
theorem editing_preserves_dense_indices_witness :
    indicesDense [(⟨1, [], [], none⟩ : Measure), ⟨2, [], [], none⟩] ∧
    (indicesDense (handleInsertMeasure 1 .after [⟨1, [], [], none⟩, ⟨2, [], [], none⟩]) ∧
      indicesDense (handleDeleteMeasure 1 [⟨1, [], [], none⟩, ⟨2, [], [], none⟩] [1]).1 ∧
      indicesDense (handleDuplicateSelection [2] [⟨1, [], [], none⟩, ⟨2, [], [], none⟩]).1) :=
  ⟨by decide, editing_preserves_dense_indices _ 1 .after 1 [1] [2] (by decide)⟩

/-- C7: duplicating the selection `[2]` in a three-measure list yields four
measures indexed `1..4`, where the new index-3 measure carries the chords,
lyrics and duration override of the original index-2 measure, and the new
selection is exactly `[3]`. -/
theorem duplicate_single_scenario
    (c1 l1 c2 l2 c3 l3 : List Char) (d1 d2 d3 : Option ℚ) :
    handleDuplicateSelection [2]
        [⟨1, c1, l1, d1⟩, ⟨2, c2, l2, d2⟩, ⟨3, c3, l3, d3⟩] =
      ([⟨1, c1, l1, d1⟩, ⟨2, c2, l2, d2⟩, ⟨3, c2, l2, d2⟩, ⟨4, c3, l3, d3⟩], [3]) := rfl

/-- Reindexing changes only the `index` field: chords, lyrics and duration
survive in positional order. -/
theorem reindex_map_content (l : List Measure) :
    ((reindex l).map fun m => (m.chords, m.lyrics, m.duration)) =
      (l.map fun m => (m.chords, m.lyrics, m.duration)) := by
  apply List.ext_getElem?
  intro i
  simp only [reindex, List.getElem?_map, List.getElem?_mapIdx]
  cases l[i]? <;> rfl

/-- C8 counterexample: the `App.tsx` delete has no empty-list guard — deleting
the only measure yields the empty list rather than being a no-op. -/
theorem delete_single_measure_not_noop :
    handleDeleteMeasure 1 [⟨1, [], [], none⟩] [1] = ([], []) ∧
    ([] : List Measure) ≠ [⟨1, [], [], none⟩] := by
  exact ⟨rfl, by decide⟩

/-- C8 (amended): the `App.tsx` delete removes the matching measure (the
remaining contents are those of the filtered list, in order), reindexes the
remainder to `1..N`, and drops the deleted index from the selection set, but
it is not a no-op on a one-measure list; the guard that refuses to empty the
list exists only in the `part_001` variant (which does not touch the
selection). -/
theorem delete_reindexes_and_drops_selection (idx : Nat) (ms : List Measure)
    (sel : List Nat) :
    indicesDense (handleDeleteMeasure idx ms sel).1 ∧
    ((handleDeleteMeasure idx ms sel).1.map fun m => (m.chords, m.lyrics, m.duration)) =
      ((ms.filter fun m => m.index != idx).map fun m => (m.chords, m.lyrics, m.duration)) ∧
    idx ∉ (handleDeleteMeasure idx ms sel).2 ∧
    (∀ j, j ≠ idx → (j ∈ (handleDeleteMeasure idx ms sel).2 ↔ j ∈ sel)) ∧
    (ms.length ≤ 1 → handleDeleteMeasureP1 idx ms = ms) := by
  refine ⟨indicesDense_reindex _, reindex_map_content _, ?_, ?_, ?_⟩
  · simp [handleDeleteMeasure, List.mem_filter]
  · intro j hj
    simp [handleDeleteMeasure, List.mem_filter, hj]
  · intro hlen
    unfold handleDeleteMeasureP1
    rw [if_pos hlen]

/-- C8 witness: deleting index 1 from a two-measure list with selection
`[1, 2]` keeps density, keeps 2 selected, and drops 1. -/
theorem delete_reindexes_and_drops_selection_witness :
    indicesDense (handleDeleteMeasure 1 [⟨1, [], [], none⟩, ⟨2, [], [], none⟩] [1, 2]).1 ∧
    ((2 : Nat) ∈ (handleDeleteMeasure 1 [⟨1, [], [], none⟩, ⟨2, [], [], none⟩] [1, 2]).2 ↔
      (2 : Nat) ∈ [1, 2]) ∧
    (1 : Nat) ∉ (handleDeleteMeasure 1 [⟨1, [], [], none⟩, ⟨2, [], [], none⟩] [1, 2]).2 :=
  have h := delete_reindexes_and_drops_selection 1
    [⟨1, [], [], none⟩, ⟨2, [], [], none⟩] [1, 2]
  ⟨h.1, h.2.2.2.1 2 (by decide), h.2.2.1⟩

/-- In a dense list the measure at position `i` has index `i + 1`. -/
theorem indicesDense_index (ms : List Measure) (h : indicesDense ms) (i : Nat)
    (m : Measure) (hm : ms[i]? = some m) : m.index = i + 1 := by
  have hi : i < ms.length := by
    by_contra hge
    rw [List.getElem?_eq_none (Nat.le_of_not_lt hge)] at hm
    exact Option.noConfusion hm
  have h1 : (ms.map (·.index))[i]? = (List.range' 1 ms.length)[i]? := by rw [h]
  rw [List.getElem?_map, hm, List.getElem?_range' 1 1 hi] at h1
  simp at h1
  omega

/-- C9: dragging measure line `dl ≥ 1` computes the new duration of measure
`dl - 1` as the (clamped) dragged time minus that measure's start; the update
is applied only when the result exceeds the 0.1 s floor, and a drag at or
below the floor leaves the measures unchanged — in both cases the operation
returns normally. -/
theorem drag_duration_floor (dl : Nat) (time : ℚ) (cfg : GridConfig)
    (ms : List Measure) (m : Measure) (hdl : dl ≠ 0) (hdense : indicesDense ms)
    (hm : ms.get? (dl - 1) = some m) :
    (max 0 time - measureStart cfg ms (dl - 1) ≤ 1 / 10 →
      handleMouseMoveDrag dl time cfg ms = (cfg, ms)) ∧
    (1 / 10 < max 0 time - measureStart cfg ms (dl - 1) →
      (handleMouseMoveDrag dl time cfg ms).2 =
        ms.map fun x =>
          if x.index = dl then
            { x with duration := some (max 0 time - measureStart cfg ms (dl - 1)) }
          else x) := by
  have hidx : m.index = dl := by
    have := indicesDense_index ms hdense (dl - 1) m (by rw [← List.get?_eq_getElem?]; exact hm)
    omega
  constructor
  · intro hle
    simp only [handleMouseMoveDrag, if_neg hdl, hm]
    rw [if_neg (not_lt.mpr hle)]
  · intro hgt
    simp only [handleMouseMoveDrag, if_neg hdl, hm]
    rw [if_pos hgt]
    show handleMeasureDurationChange m.index (max 0 time - measureStart cfg ms (dl - 1)) ms = _
    unfold handleMeasureDurationChange
    rw [hidx]
    apply List.map_congr_left
    intro x _
    by_cases hxi : x.index = dl
    · rw [if_pos hxi, if_pos hxi, if_pos (lt_trans (by norm_num) hgt)]
    · rw [if_neg hxi, if_neg hxi]

/-- C9 witness: dragging line 1 to time 5 on a single standard measure at
offset 0 sets its duration to 5, which is past the 0.1 s floor. -/
theorem drag_duration_floor_witness :
    (handleMouseMoveDrag 1 5 ⟨120, 4, 4, ['C'], 0, .quarter⟩ [⟨1, [], [], none⟩]).2 =
      [(⟨1, [], [], none⟩ : Measure)].map fun x =>
        if x.index = 1 then
          { x with duration := some (max 0 5 -
              measureStart ⟨120, 4, 4, ['C'], 0, .quarter⟩ [⟨1, [], [], none⟩] 0) }
        else x :=
  (drag_duration_floor 1 5 ⟨120, 4, 4, ['C'], 0, .quarter⟩ [⟨1, [], [], none⟩]
      ⟨1, [], [], none⟩ (by decide) (by decide) rfl).2
    (by norm_num [measureStart])

/-- C5 counterexample: the flat-spelled chord `Db` does not survive the round
trip — transposing up one semitone and back returns the sharp respelling
`C#`, because `transposeNote` normalises flats to sharps and re-spells from
the sharp table. -/
theorem transpose_round_trip_fails_on_flats :
    transposeChordStr (transposeChordStr ['D', 'b'] 1) (-1) = ['C', '#'] ∧
    (['C', '#'] : List Char) ≠ ['D', 'b'] := by
  exact ⟨by decide, by decide⟩

/-- A string without the separator splits into itself alone. -/
theorem jsSplit_no_sep (sep : Char) :
    ∀ (p : List Char), sep ∉ p → jsSplit sep p = [p] := by
  intro p
  induction p with
  | nil => intro _; rfl
  | cons c rest ih =>
    intro hmem
    have hc : c ≠ sep := fun h => hmem (h ▸ List.mem_cons_self c rest)
    have hrest : sep ∉ rest := fun h => hmem (List.mem_cons_of_mem c h)
    simp only [jsSplit, List.foldr_cons] at *
    rw [ih hrest]
    simp [hc]

/-- Splitting at the first separator peels off the separator-free prefix. -/
theorem jsSplit_append (sep : Char) :
    ∀ (p q : List Char), sep ∉ p →
      jsSplit sep (p ++ sep :: q) = p :: jsSplit sep q := by
  intro p
  induction p with
  | nil =>
    intro q _
    simp [jsSplit]
  | cons c rest ih =>
    intro q hmem
    have hc : c ≠ sep := fun h => hmem (h ▸ List.mem_cons_self c rest)
    have hrest : sep ∉ rest := fun h => hmem (List.mem_cons_of_mem c h)
    have hr := ih q hrest
    simp only [jsSplit, List.cons_append, List.foldr_cons] at hr ⊢
    rw [hr]
    simp [hc]

/-- `transposeNote` moves a sharp-table token by `k` semitones around the
chromatic circle. -/
theorem transposeNote_noteAt (i : Nat) (hi : i < 12) (k : Int) :
    transposeNote (noteAt i) k = noteAt (((i : Int) + k) % 12).toNat := by
  interval_cases i <;> rfl

/-- Transposing a sharp-table token by `k` and back by `-k` is the identity. -/
theorem transposeNote_round_trip (i : Nat) (hi : i < 12) (k : Int) :
    transposeNote (transposeNote (noteAt i) k) (-k) = noteAt i := by
  rw [transposeNote_noteAt i hi k]
  have h2 : (((i : Int) + k) % 12).toNat < 12 := by omega
  rw [transposeNote_noteAt _ h2 (-k)]
  congr 1
  omega

/-- `processPart` on a letter + accidental root keeps the single-line suffix. -/
theorem processPart_two (k : Int) (c a : Char) (s : List Char)
    (hc : 'A' ≤ c ∧ c ≤ 'G') (ha : a = '#' ∨ a = 'b')
    (hnl : ∀ x ∈ s, regexDotChar x = true) :
    processPart k (c :: a :: s) = transposeNote [c, a] k ++ s := by
  show (if 'A' ≤ c ∧ c ≤ 'G' then
      if a = '#' ∨ a = 'b' then transposeNote [c, a] k ++ s.takeWhile regexDotChar
      else transposeNote [c] k ++ (a :: s).takeWhile regexDotChar
    else c :: a :: s) = transposeNote [c, a] k ++ s
  rw [if_pos hc, if_pos ha, List.takeWhile_eq_self_iff.mpr hnl]

/-- `processPart` on a bare letter root keeps the single-line suffix as long
as it does not start with an accidental. -/
theorem processPart_one (k : Int) (c : Char) (s : List Char)
    (hc : 'A' ≤ c ∧ c ≤ 'G')
    (hh : ∀ x, s.head? = some x → ¬(x = '#' ∨ x = 'b'))
    (hnl : ∀ x ∈ s, regexDotChar x = true) :
    processPart k (c :: s) = transposeNote [c] k ++ s := by
  cases s with
  | nil =>
    show (if 'A' ≤ c ∧ c ≤ 'G' then transposeNote [c] k else [c]) =
      transposeNote [c] k ++ []
    rw [if_pos hc, List.append_nil]
  | cons a s2 =>
    show (if 'A' ≤ c ∧ c ≤ 'G' then
        if a = '#' ∨ a = 'b' then transposeNote [c, a] k ++ s2.takeWhile regexDotChar
        else transposeNote [c] k ++ (a :: s2).takeWhile regexDotChar
      else c :: a :: s2) = transposeNote [c] k ++ a :: s2
    rw [if_pos hc, if_neg (hh a rfl), List.takeWhile_eq_self_iff.mpr hnl]

/-- The regex `^([A-G][#b]?)(.*)` splits a rendered chord part back into its
sharp-table root token and its grammar-conforming suffix. -/
theorem processPart_token (k : Int) (i : Nat) (hi : i < 12) (s : List Char)
    (hgood : goodSuffix s) :
    processPart k (noteAt i ++ s) = transposeNote (noteAt i) k ++ s := by
  have hnl : ∀ x ∈ s, regexDotChar x = true := fun x hx => (hgood.1 x hx).1
  have hh : ∀ x, s.head? = some x → ¬(x = '#' ∨ x = 'b') := by
    intro x hx hor
    rcases hgood.2 x hx with ⟨h1, h2⟩
    rcases hor with h | h
    · exact h1 h
    · exact h2 h
  interval_cases i <;>
    first
    | exact processPart_one k _ s (by decide) hh hnl
    | exact processPart_two k _ _ s (by decide) (by decide) hnl

/-- The root tokens contain no separator and are non-empty. -/
theorem noteAt_no_slash (i : Nat) (hi : i < 12) :
    noteAt i ≠ [] ∧ '/' ∉ noteAt i := by
  interval_cases i <;> exact ⟨by decide, by decide⟩

/-- `transposeChordStr` on a slash-free chord of the grammar transposes just
the root token. -/
theorem transposeChordStr_single (k : Int) (i : Nat) (hi : i < 12)
    (s : List Char) (hgood : goodSuffix s) :
    transposeChordStr (noteAt i ++ s) k =
      noteAt (((i : Int) + k) % 12).toNat ++ s := by
  obtain ⟨hne0, hsl0⟩ := noteAt_no_slash i hi
  have hne : noteAt i ++ s ≠ [] := fun h => hne0 (List.append_eq_nil.mp h).1
  have hsl : '/' ∉ noteAt i ++ s := by
    intro hmem
    rcases List.mem_append.mp hmem with h | h
    · exact hsl0 h
    · exact (hgood.1 _ h).2 rfl
  simp only [transposeChordStr]
  rw [if_neg hne, jsSplit_no_sep '/' _ hsl]
  rw [if_neg (by simp)]
  rw [processPart_token k i hi s hgood, transposeNote_noteAt i hi k]

/-- `transposeChordStr` on a slash chord of the grammar transposes both the
main root and the bass root, keeping both suffixes. -/
theorem transposeChordStr_slash (k : Int) (i1 : Nat) (hi1 : i1 < 12)
    (s1 : List Char) (hg1 : goodSuffix s1) (i2 : Nat) (hi2 : i2 < 12)
    (s2 : List Char) (hg2 : goodSuffix s2) :
    transposeChordStr ((noteAt i1 ++ s1) ++ '/' :: (noteAt i2 ++ s2)) k =
      (noteAt (((i1 : Int) + k) % 12).toNat ++ s1) ++
        '/' :: (noteAt (((i2 : Int) + k) % 12).toNat ++ s2) := by
  obtain ⟨hne1, hsl1⟩ := noteAt_no_slash i1 hi1
  obtain ⟨hne2, hsl2⟩ := noteAt_no_slash i2 hi2
  have hp1 : '/' ∉ noteAt i1 ++ s1 := by
    intro hmem
    rcases List.mem_append.mp hmem with h | h
    · exact hsl1 h
    · exact (hg1.1 _ h).2 rfl
  have hp2 : '/' ∉ noteAt i2 ++ s2 := by
    intro hmem
    rcases List.mem_append.mp hmem with h | h
    · exact hsl2 h
    · exact (hg2.1 _ h).2 rfl
  have hne : (noteAt i1 ++ s1) ++ '/' :: (noteAt i2 ++ s2) ≠ [] := by
    simp
  simp only [transposeChordStr]
  rw [if_neg hne, jsSplit_append '/' _ _ hp1, jsSplit_no_sep '/' _ hp2]
  rw [if_pos (by simp : ([noteAt i1 ++ s1, noteAt i2 ++ s2] : List (List Char)).length = 2)]
  simp only [List.getD, List.get?_cons_zero, List.get?_cons_succ, Option.getD_some]
  rw [processPart_token k i1 hi1 s1 hg1, transposeNote_noteAt i1 hi1 k,
    processPart_token k i2 hi2 s2 hg2, transposeNote_noteAt i2 hi2 k]

/-- C5 (amended): the transpose round trip holds for every chord of the
supported grammar whose root spellings come from the sharps table (a natural
or sharp root, optional quality suffix, optional slash bass with the same
restriction); flat-spelled roots are re-spelled as sharps and may not round
trip. -/
theorem transposeChordStr_round_trip (k : Int) (root : Nat) (suffix : List Char)
    (bass : Option (Nat × List Char)) (hroot : root < 12) (hsuf : goodSuffix suffix)
    (hbass : ∀ br bs, bass = some (br, bs) → br < 12 ∧ goodSuffix bs) :
    transposeChordStr (transposeChordStr (renderChord root suffix bass) k) (-k) =
      renderChord root suffix bass := by
  cases bass with
  | none =>
    simp only [renderChord]
    rw [transposeChordStr_single k root hroot suffix hsuf]
    have h2 : (((root : Int) + k) % 12).toNat < 12 := by omega
    rw [transposeChordStr_single (-k) _ h2 suffix hsuf]
    have e1 : ((((((root : Int) + k) % 12).toNat : Int) + -k) % 12).toNat = root := by
      omega
    rw [e1]
  | some pair =>
    obtain ⟨br, bs⟩ := pair
    obtain ⟨hbr, hbs⟩ := hbass br bs rfl
    simp only [renderChord]
    rw [transposeChordStr_slash k root hroot suffix hsuf br hbr bs hbs]
    have h2 : (((root : Int) + k) % 12).toNat < 12 := by omega
    have h3 : (((br : Int) + k) % 12).toNat < 12 := by omega
    rw [transposeChordStr_slash (-k) _ h2 suffix hsuf _ h3 bs hbs]
    have e1 : ((((((root : Int) + k) % 12).toNat : Int) + -k) % 12).toNat = root := by
      omega
    have e2 : ((((((br : Int) + k) % 12).toNat : Int) + -k) % 12).toNat = br := by
      omega
    rw [e1, e2]

/-- C5 witness: the sharp-rooted chord `Am7` (root index 9, suffix `m7`, no
bass) survives transposing up 3 semitones and back. -/
theorem transposeChordStr_round_trip_witness :
    transposeChordStr (transposeChordStr (renderChord 9 ['m', '7'] none) 3) (-3) =
      renderChord 9 ['m', '7'] none :=
  transposeChordStr_round_trip 3 9 ['m', '7'] none (by decide) (by decide)
    (fun _ _ h => Option.noConfusion h)
